import Mathlib

/-!
Verification of the DocMind document-to-retrievable-knowledge pipeline.

This file shallowly embeds the core of the repository:
* the chunker (`app/services/document_service.py` `_chunk_text`, identical to
  `app/rag.py` `_chunk_text`),
* PDF text extraction (`_extract_text_from_pdf`),
* the ingestion pipeline (`DocumentService.upload_document`),
* the repository state and its operations (`app/repositories/document_repository.py`:
  `add_chunks`, `save_document_metadata`, `delete_document`, `delete_all`,
  `_save_metadata`),
* the query engine (`app/services/query_service.py` `QueryService.query`).

External collaborators (pypdf, the Gemini embedding and generation calls,
ChromaDB) are modelled as explicit data / function parameters: a parsed-PDF
data type stands for what `PdfReader` yields, the generation capability is a
function argument, and the Chroma collection is a list of chunk records.
-/

namespace DocMind

/-! ## Python string helpers -/

/-- Whitespace as stripped by Python's `str.strip()`, restricted to the ASCII
range (the texts this development evaluates contain no further Unicode
whitespace). -/
def isPySpace (c : Char) : Bool :=
  c = ' ' || c = '\t' || c = '\n' || c = '\r' || c = '\x0b' || c = '\x0c'

/-- Truthiness of `s.strip()` in Python: `s.strip()` is non-empty exactly when
`s` holds at least one non-whitespace character. -/
def hasNonWS (s : String) : Bool :=
  s.toList.any (fun c => !(isPySpace c))

/-- Substring test, `pat in s` in Python. -/
def strContains (s pat : String) : Bool :=
  s.toList.tails.any (fun t => pat.toList.isPrefixOf t)

/-- `str.lower()` (the texts compared here are ASCII). -/
def pyLower (s : String) : String := String.mk (s.toList.map Char.toLower)

/-! ## Chunker

`DocumentService._chunk_text` (document_service.py lines 88-101), textually
identical to `RAGSystem._chunk_text` (rag.py lines 94-120):

```python
chunks = []
start = 0
while start < len(text):
    end = start + chunk_size
    chunk = text[start:end]
    if chunk.strip():
        chunks.append(chunk)
    start = end - overlap
return chunks
```

The loop is embedded twice.  `chunkStep` below is the faithful small-step
semantics of one loop iteration (with Python's integer arithmetic and slice
clamping), valid for every configuration including the non-terminating ones.
`chunk_text` here is the same loop written as a structurally recursive
function over a fuel bound; one unit of fuel per iteration, and
`text.length` units suffice because each iteration advances `start` by
`size - overlap ≥ 1` whenever `overlap < size`.  The lemma
`chunkStep_iterate` proves that on every configuration with
`overlap < size` the small-step loop terminates with exactly the chunks
computed by `chunk_text`. -/

def chunkTextAux (cs : List Char) (size overlap : Nat) : Nat → Nat → List String
  | 0, _ => []
  | fuel + 1, start =>
    if start < cs.length then
      let chunk := String.mk ((cs.drop start).take size)
      let rest := chunkTextAux cs size overlap fuel (start + (size - overlap))
      if hasNonWS chunk then chunk :: rest else rest
    else []

/-- `_chunk_text(text, chunk_size, overlap)` on the terminating domain. -/
def chunk_text (text : String) (size overlap : Nat) : List String :=
  chunkTextAux text.toList size overlap text.toList.length 0

/-- `settings.CHUNK_SIZE` (config.py). -/
def CHUNK_SIZE : Nat := 1000

/-- `settings.CHUNK_OVERLAP` (config.py). -/
def CHUNK_OVERLAP : Nat := 200

/-- The window start positions the loop visits: `start` takes the values
`0, s, 2s, ...` with `s = size - overlap`, independently of which windows end
up emitted. -/
def windowStartsAux (len size overlap : Nat) : Nat → Nat → List Nat
  | 0, _ => []
  | fuel + 1, start =>
    if start < len then
      start :: windowStartsAux len size overlap fuel (start + (size - overlap))
    else []

/-- Window start positions of `chunk_text` on a text of length `len`. -/
def windowStarts (len size overlap : Nat) : List Nat :=
  windowStartsAux len size overlap len 0

/-! ### Small-step semantics of the chunking loop (all configurations) -/

/-- Python slice-index normalisation for `text[a:b]`: a negative index counts
from the end, then the index is clamped into `[0, len]`. -/
def pySliceIdx (len : Nat) (i : Int) : Nat :=
  let j := if i < 0 then i + len else i
  min (max j 0).toNat len

/-- Python's `text[a:b]` on a list of characters. -/
def pySlice (cs : List Char) (a b : Int) : List Char :=
  let lo := pySliceIdx cs.length a
  let hi := pySliceIdx cs.length b
  (cs.drop lo).take (hi - lo)

/-- State of the `while start < len(text)` loop. -/
structure ChunkLoop where
  start : Int
  chunks : List String
  deriving DecidableEq

/-- One iteration of the chunking loop, the identity once the guard fails. -/
def chunkStep (cs : List Char) (size overlap : Int) (s : ChunkLoop) : ChunkLoop :=
  if s.start < (cs.length : Int) then
    let chunk := String.mk (pySlice cs s.start (s.start + size))
    { start := s.start + size - overlap
      chunks := if hasNonWS chunk then s.chunks ++ [chunk] else s.chunks }
  else s

example : chunk_text "" 1000 200 = [] := by decide
example : chunk_text "   " 1000 200 = [] := by decide
example : chunk_text "abcd" 5 2 = ["abcd", "d"] := by decide
example : windowStarts 4 5 2 = [0, 3] := by decide

/-! ## Chunker lemmas -/

/-- The chunks are exactly the non-whitespace windows taken at the visited
start positions. -/
lemma chunkTextAux_eq_filterMap (cs : List Char) (size overlap : Nat) :
    ∀ fuel start,
      chunkTextAux cs size overlap fuel start =
        (windowStartsAux cs.length size overlap fuel start).filterMap (fun st =>
          let c := String.mk ((cs.drop st).take size)
          if hasNonWS c then some c else none) := by
  intro fuel
  induction fuel with
  | zero => intro start; simp [chunkTextAux, windowStartsAux]
  | succ f ih =>
    intro start
    by_cases h : start < cs.length
    · simp only [chunkTextAux, windowStartsAux, h, if_true, List.filterMap_cons]
      by_cases hws : hasNonWS (String.mk ((cs.drop start).take size))
      · simp [hws, ih]
      · simp [hws, ih]
    · simp [chunkTextAux, windowStartsAux, h]

/-- A nonempty window-start list begins with the start it was entered at. -/
lemma windowStartsAux_head (len size overlap : Nat) :
    ∀ fuel start, windowStartsAux len size overlap fuel start ≠ [] →
      (windowStartsAux len size overlap fuel start).head? = some start := by
  intro fuel start h
  cases fuel with
  | zero => simp [windowStartsAux] at h
  | succ f =>
    by_cases hlt : start < len
    · simp [windowStartsAux, hlt]
    · simp [windowStartsAux, hlt] at h

/-- The window-start list is entered with a start below `len` exactly when it
is nonempty, provided there is fuel left. -/
lemma windowStartsAux_ne_nil (len size overlap : Nat) (fuel start : Nat)
    (hfuel : 0 < fuel) (hlt : start < len) :
    windowStartsAux len size overlap fuel start ≠ [] := by
  cases fuel with
  | zero => omega
  | succ f => simp [windowStartsAux, hlt]

/-- Consecutive visited start positions differ by `size - overlap`. -/
lemma windowStartsAux_step (len size overlap : Nat) :
    ∀ fuel start i a,
      (windowStartsAux len size overlap fuel start)[i + 1]? = some a →
        ∃ b, (windowStartsAux len size overlap fuel start)[i]? = some b ∧
          a = b + (size - overlap) := by
  intro fuel
  induction fuel with
  | zero => intro start i a h; simp [windowStartsAux] at h
  | succ f ih =>
    intro start i a h
    by_cases hlt : start < len
    · simp only [windowStartsAux, hlt, if_true] at h ⊢
      cases i with
      | zero =>
        simp only [List.getElem?_cons_succ] at h
        have hne : windowStartsAux len size overlap f (start + (size - overlap)) ≠ [] := by
          intro hnil
          simp [hnil] at h
        have hh := windowStartsAux_head len size overlap f (start + (size - overlap)) hne
        rcases hl : windowStartsAux len size overlap f (start + (size - overlap)) with _ | ⟨b, t⟩
        · exact absurd hl hne
        · simp only [hl, List.head?_cons, Option.some.injEq] at hh
          simp only [hl, List.getElem?_cons_zero, Option.some.injEq] at h
          exact ⟨start, by simp, by omega⟩
      | succ j =>
        simp only [List.getElem?_cons_succ] at h ⊢
        exact ih (start + (size - overlap)) j a h
    · simp [windowStartsAux, hlt] at h

/-- If some character at or after position `start` is non-whitespace, the loop
entered at `start` emits at least one chunk. -/
lemma chunkTextAux_ne_nil (cs : List Char) (size overlap : Nat)
    (hov : overlap < size) :
    ∀ fuel start, cs.length - start ≤ fuel →
      (∀ p, (hp : p < cs.length) → start ≤ p → isPySpace (cs.get ⟨p, hp⟩) = false →
        chunkTextAux cs size overlap fuel start ≠ []) := by
  intro fuel
  induction fuel with
  | zero => intro start hfuel p hp hsp hws; omega
  | succ f ih =>
    intro start hfuel p hp hsp hws
    have hlt : start < cs.length := by omega
    simp only [chunkTextAux, hlt, if_true]
    by_cases hchunk : hasNonWS (String.mk ((cs.drop start).take size))
    · simp [hchunk]
    · -- every character in the window is whitespace, so p lies beyond it
      have hwin : ∀ c ∈ (cs.drop start).take size, isPySpace c = true := by
        intro c hc
        by_contra hcc
        apply hchunk
        simp only [hasNonWS, List.any_eq_true]
        exact ⟨c, hc, by simp [hcc]⟩
      have hpbig : start + size ≤ p := by
        by_contra hsmall
        push_neg at hsmall
        have hidx : p - start < size := by omega
        have hidx2 : p - start < (cs.drop start).length := by
          simp only [List.length_drop]; omega
        have hidx3 : p - start < ((cs.drop start).take size).length := by
          simp only [List.length_take, List.length_drop]
          omega
        have hmem : cs.get ⟨p, hp⟩ ∈ (cs.drop start).take size := by
          have hgt : ((cs.drop start).take size).get ⟨p - start, hidx3⟩ = cs.get ⟨p, hp⟩ := by
            simp only [List.get_eq_getElem, List.getElem_take, List.getElem_drop]
            congr 1
            omega
          rw [← hgt]
          exact List.get_mem _ _ _
        have := hwin _ hmem
        rw [hws] at this
        exact Bool.false_ne_true this
      have hstep : start + (size - overlap) ≤ p := by omega
      have := ih (start + (size - overlap)) (by omega) p hp hstep hws
      simp only [hchunk, if_false]
      exact this

/-- On the terminating domain the small-step loop exits and computes exactly
`chunkTextAux`: starting at any position with any accumulator, finitely many
iterations reach a state failing the guard whose chunk list extends the
accumulator by the chunks of `chunkTextAux`. -/
lemma chunkStep_iterate (cs : List Char) (size overlap : Nat)
    (hov : overlap < size) :
    ∀ fuel (start : Nat) (acc : List String), cs.length - start ≤ fuel →
      ∃ n, ¬ (((chunkStep cs size overlap)^[n] ⟨(start : Int), acc⟩).start < (cs.length : Int)) ∧
        ((chunkStep cs size overlap)^[n] ⟨(start : Int), acc⟩).chunks =
          acc ++ chunkTextAux cs size overlap fuel start := by
  intro fuel
  induction fuel with
  | zero =>
    intro start acc hfuel
    refine ⟨0, ?_, ?_⟩
    · simp only [Function.iterate_zero, id_eq]
      push_neg
      exact_mod_cast Nat.le_of_sub_eq_zero (by omega)
    · simp [chunkTextAux]
  | succ f ih =>
    intro start acc hfuel
    by_cases hlt : start < cs.length
    · -- one loop iteration, then the induction hypothesis
      have hslice : pySlice cs (start : Int) ((start : Int) + (size : Int)) =
          (cs.drop start).take size := by
        simp only [pySlice, pySliceIdx]
        have h1 : ¬ ((start : Int) < 0) := by omega
        have h2 : ¬ ((start : Int) + (size : Int) < 0) := by omega
        simp only [h1, h2, if_false]
        have e1 : min (max (start : Int) 0).toNat cs.length = start := by
          omega
        have e2 : min (max ((start : Int) + (size : Int)) 0).toNat cs.length =
            min (start + size) cs.length := by
          omega
        rw [e1, e2]
        rcases le_or_lt (start + size) cs.length with hc | hc
        · congr 1
          omega
        · have hmin : min (start + size) cs.length = cs.length := by omega
          rw [hmin]
          have hlen : (cs.drop start).length = cs.length - start := by simp
          rw [List.take_of_length_le (by omega), List.take_of_length_le (by omega)]
      have hstep : chunkStep cs size overlap ⟨(start : Int), acc⟩ =
          ⟨((start + (size - overlap) : Nat) : Int),
            if hasNonWS (String.mk ((cs.drop start).take size)) then
              acc ++ [String.mk ((cs.drop start).take size)] else acc⟩ := by
        simp only [chunkStep]
        rw [if_pos (by exact_mod_cast hlt)]
        rw [hslice]
        congr 1
        push_cast
        omega
      obtain ⟨n, hn1, hn2⟩ := ih (start + (size - overlap))
        (if hasNonWS (String.mk ((cs.drop start).take size)) then
          acc ++ [String.mk ((cs.drop start).take size)] else acc) (by omega)
      refine ⟨n + 1, ?_, ?_⟩
      · rw [Function.iterate_succ_apply, hstep]
        exact hn1
      · rw [Function.iterate_succ_apply, hstep, hn2]
        simp only [chunkTextAux, hlt, if_true]
        by_cases hws : hasNonWS (String.mk ((cs.drop start).take size))
        · simp [hws]
        · simp [hws]
    · refine ⟨0, ?_, ?_⟩
      · simp only [Function.iterate_zero, id_eq]
        push_neg
        exact_mod_cast Nat.le_of_not_lt hlt
      · simp [chunkTextAux, hlt]

/-! ## Round-trip reconstruction -/

/-- Re-concatenate a chunk sequence, dropping the last `overlap` characters of
every chunk except the final one (the reconstruction described by the spec's
round-trip property). -/
def dropLastOverlapJoin (overlap : Nat) : List String → String
  | [] => ""
  | [c] => c
  | c :: rest =>
    String.mk (c.toList.take (c.toList.length - overlap)) ++ dropLastOverlapJoin overlap rest

lemma string_mk_append (l₁ l₂ : List Char) :
    String.mk l₁ ++ String.mk l₂ = String.mk (l₁ ++ l₂) := rfl

lemma chunkTextAux_nil_of_le (cs : List Char) (size overlap : Nat) :
    ∀ fuel start, cs.length ≤ start → chunkTextAux cs size overlap fuel start = [] := by
  intro fuel start h
  cases fuel with
  | zero => rfl
  | succ f => simp [chunkTextAux, Nat.not_lt.mpr h]

/-- When no window is discarded and every non-final window is full length,
the reconstruction starting at any visited position recovers the
corresponding suffix of the text. -/
lemma dropLastOverlapJoin_chunkTextAux (cs : List Char) (size overlap : Nat)
    (hov0 : 0 < overlap) (hov : overlap < size) :
    ∀ fuel start, cs.length - start ≤ fuel →
      (∀ st ∈ windowStartsAux cs.length size overlap fuel start,
        hasNonWS (String.mk ((cs.drop st).take size)) = true) →
      (∀ st ∈ windowStartsAux cs.length size overlap fuel start,
        st + size ≤ cs.length ∨ cs.length ≤ st + (size - overlap)) →
      dropLastOverlapJoin overlap (chunkTextAux cs size overlap fuel start) =
        String.mk (cs.drop start) := by
  intro fuel
  induction fuel with
  | zero =>
    intro start hfuel _ _
    have hge : cs.length ≤ start := by omega
    rw [chunkTextAux_nil_of_le cs size overlap 0 start hge,
      List.drop_eq_nil_of_le hge]
    rfl
  | succ f ih =>
    intro start hfuel hnodrop hfull
    by_cases hlt : start < cs.length
    · have hmemhead : start ∈ windowStartsAux cs.length size overlap (f + 1) start := by
        simp [windowStartsAux, hlt]
      have hws := hnodrop start hmemhead
      have htail : ∀ st ∈ windowStartsAux cs.length size overlap f (start + (size - overlap)),
          st ∈ windowStartsAux cs.length size overlap (f + 1) start := by
        intro st hst
        simp [windowStartsAux, hlt, hst]
      simp only [chunkTextAux, hlt, if_true, hws, if_pos]
      by_cases hfin : cs.length ≤ start + (size - overlap)
      · -- final window: the recursion is empty and the window reaches the end
        rw [chunkTextAux_nil_of_le cs size overlap f (start + (size - overlap)) hfin]
        have hlen : (cs.drop start).length ≤ size := by
          simp only [List.length_drop]
          omega
        rw [List.take_of_length_le hlen]
        rfl
      · push_neg at hfin
        have hfull0 : start + size ≤ cs.length := by
          rcases hfull start hmemhead with h | h
          · exact h
          · omega
        -- the recursive chunk list is nonempty: its first window is emitted
        have hfge : 1 ≤ f := by omega
        rcases hf : f with _ | g
        · omega
        · have hmem2 : start + (size - overlap) ∈
              windowStartsAux cs.length size overlap (f + 1) start := by
            apply htail
            rw [hf]
            simp [windowStartsAux, hfin]
          have hws2 := hnodrop _ hmem2
          have hrestne : chunkTextAux cs size overlap f (start + (size - overlap)) ≠ [] := by
            rw [hf]
            simp only [chunkTextAux, hfin, if_true, hws2, if_pos]
            exact List.cons_ne_nil _ _
          rw [← hf] at *
          rcases hrest : chunkTextAux cs size overlap f (start + (size - overlap)) with _ | ⟨c2, r2⟩
          · exact absurd hrest hrestne
          · have hihyp := ih (start + (size - overlap)) (by omega)
              (fun st hst => hnodrop st (htail st hst))
              (fun st hst => hfull st (htail st hst))
            rw [hrest] at hihyp
            show String.mk ((((cs.drop start).take size).take
              (((cs.drop start).take size).length - overlap))) ++ _ = _
            rw [hihyp]
            have hlensz : ((cs.drop start).take size).length = size := by
              simp only [List.length_take, List.length_drop]
              omega
            rw [hlensz, List.take_take]
            have hminr : min (size - overlap) size = size - overlap := by omega
            rw [hminr, string_mk_append]
            congr 1
            have hdd : cs.drop (start + (size - overlap)) =
                (cs.drop start).drop (size - overlap) := by
              rw [List.drop_drop]
            rw [hdd, List.take_append_drop]
    · push_neg at hlt
      rw [chunkTextAux_nil_of_le cs size overlap (f + 1) start hlt,
        List.drop_eq_nil_of_le hlt]
      rfl

/-! ## Text extraction (`DocumentService._extract_text_from_pdf`)

`PdfReader` and the uploaded bytes are external to the repository; they are
modelled as data.  A parsed PDF is a flag `encrypted` plus the per-page
outcomes of `page.extract_text()`; bytes that `PdfReader` cannot parse at all
(for instance a plain-text file) are `FileContent.nonPdf`. -/

/-- Outcome of `page.extract_text()` for one page: either text (pypdf's
`None` is modelled as `""`, matching the `or ""` in the source) or a raised
per-page exception. -/
inductive PdfPage where
  | content (text : String)
  | extractFailure (msg : String)
  deriving DecidableEq

structure PdfDoc where
  encrypted : Bool
  pages : List PdfPage
  deriving DecidableEq

inductive FileContent where
  | pdf (doc : PdfDoc)
  | nonPdf (raw : String)
  deriving DecidableEq

/-- Python exception kinds relevant to the pipeline: `ValueError` (mapped by
the controller to an HTTP 400 client rejection) and pypdf's read errors
(mapped to HTTP 500). -/
inductive AppError where
  | valueError (msg : String)
  | pdfReadError (msg : String)
  deriving DecidableEq

def AppError.msg : AppError → String
  | .valueError m => m
  | .pdfReadError m => m

def encryptedPdfMsg : String := "PDF is encrypted. Please provide an unencrypted PDF."

def noTextMsg : String :=
  "Could not extract any text from the PDF. This might be a scanned/image-based PDF."

/-- The message of the read error pypdf raises on bytes that are not a PDF.
Only its kind (not a `ValueError`) and the absence of the substring
"encrypted" matter below; the concrete wording models pypdf's. -/
def pdfReadFailMsg : String := "Stream has ended unexpectedly"

/-- The page loop: `text += page.extract_text() or ""`, per-page exceptions
logged and skipped. -/
def extractPagesText (pages : List PdfPage) : String :=
  pages.foldl (fun acc p =>
    match p with
    | .content t => acc ++ t
    | .extractFailure _ => acc) ""

/-- Body of the `try` block of `_extract_text_from_pdf`. -/
def extractBody (content : FileContent) : Except AppError String :=
  match content with
  | .nonPdf _ => .error (.pdfReadError pdfReadFailMsg)
  | .pdf doc =>
    if doc.encrypted then .error (.valueError encryptedPdfMsg)
    else
      let text := extractPagesText doc.pages
      if hasNonWS text then .ok text
      else .error (.valueError noTextMsg)

/-- `_extract_text_from_pdf` (document_service.py lines 60-86): the `try`
body plus the `except` clause re-raising anything whose message contains
"encrypted" as the canned encrypted-PDF `ValueError`. -/
def extract_text_from_pdf (content : FileContent) : Except AppError String :=
  match extractBody content with
  | .ok t => .ok t
  | .error e =>
    if strContains (pyLower e.msg) "encrypted" then .error (.valueError encryptedPdfMsg)
    else .error e

/-! ## Repository state (`DocumentRepository`) -/

/-- One record in the Chroma collection, as written by `add_chunks`.  The
embedding vector is the opaque result of the external Gemini call; no claim
concerns its value, so it is not carried. -/
structure ChunkRecord where
  chunkId : String
  docId : String
  filename : String
  chunkIndex : Nat
  text : String
  deriving DecidableEq

/-- Document metadata as built by `upload_document`.  `uploaded_at` is the
wall-clock timestamp, irrelevant to every claim, and omitted. -/
structure DocMeta where
  id : String
  filename : String
  chunks_count : Nat
  deriving DecidableEq

/-- Python dict lookup on an insertion-ordered association list. -/
def dictGet (k : String) (d : List (String × DocMeta)) : Option DocMeta :=
  (d.find? (fun e => e.1 == k)).map (fun e => e.2)

/-- Python dict assignment `d[k] = v`. -/
def dictInsert (k : String) (v : DocMeta) (d : List (String × DocMeta)) :
    List (String × DocMeta) :=
  if d.any (fun e => e.1 == k) then d.map (fun e => if e.1 == k then (k, v) else e)
  else d ++ [(k, v)]

/-- Python dict deletion `del d[k]`. -/
def dictErase (k : String) (d : List (String × DocMeta)) : List (String × DocMeta) :=
  d.filter (fun e => !(e.1 == k))

/-- Repository state: the Chroma collection, the in-memory `self.documents`
mapping, and the persisted content of `metadata.json`. -/
structure Store where
  vec : List ChunkRecord
  meta : List (String × DocMeta)
  file : List (String × DocMeta)
  deriving DecidableEq

def emptyStore : Store := ⟨[], [], []⟩

/-- `add_chunks` (document_repository.py): one collection record per chunk,
ids `f"{doc_id}_{i}"`, metadata `{doc_id, filename, chunk_index}`. -/
def mkChunkRecords (docId filename : String) (chunks : List String) : List ChunkRecord :=
  chunks.enum.map (fun e =>
    ⟨docId ++ "_" ++ toString e.1, docId, filename, e.1, e.2⟩)

def add_chunks (docId filename : String) (chunks : List String) (st : Store) : Store :=
  { st with vec := st.vec ++ mkChunkRecords docId filename chunks }

/-- `save_document_metadata` followed by `_save_metadata`: assign into the
mapping, then persist the full mapping (write-through). -/
def save_document_metadata (docId : String) (md : DocMeta) (st : Store) : Store :=
  let meta := dictInsert docId md st.meta
  { st with meta := meta, file := meta }

/-- `delete_document` (document_repository.py lines 76-88). -/
def delete_document (docId : String) (st : Store) : Bool × Store :=
  if (dictGet docId st.meta).isNone then (false, st)
  else
    let ids := (st.vec.filter (fun c => c.docId == docId)).map (fun c => c.chunkId)
    let vec := if ids.isEmpty then st.vec
      else st.vec.filter (fun c => !(ids.contains c.chunkId))
    let meta := dictErase docId st.meta
    (true, { vec := vec, meta := meta, file := meta })

/-- `delete_all` (document_repository.py lines 90-103).  The three fallible
steps inside the `try` — `delete_collection`, `get_or_create_collection` and
the `metadata.json` write — are external; each parameter is `none` when the
step succeeds and `some msg` when it raises.  Any raise is caught and turned
into `False`. -/
def delete_all (delErr createErr saveErr : Option String) (st : Store) : Bool × Store :=
  match delErr with
  | some _ => (false, st)
  | none =>
    match createErr with
    | some _ => (false, { st with vec := [] })
    | none =>
      match saveErr with
      | some _ => (false, { st with vec := [], meta := [] })
      | none => (true, { vec := [], meta := [], file := [] })

/-! ## Ingestion (`DocumentService.upload_document`, lines 21-46)

The fresh uuid is a parameter.  On an exception the caller's state is the
state at the moment of the raise; the result therefore carries the store on
both branches. -/

def upload_document (docId filename : String) (content : FileContent) (st : Store) :
    Except (AppError × Store) (DocMeta × Store) :=
  match extract_text_from_pdf content with
  | .error e => .error (e, st)
  | .ok text =>
    if !(hasNonWS text) then .error (.valueError "Could not extract text from PDF", st)
    else
      let chunks := chunk_text text CHUNK_SIZE CHUNK_OVERLAP
      let st1 := add_chunks docId filename chunks st
      let md : DocMeta := ⟨docId, filename, chunks.length⟩
      let st2 := save_document_metadata docId md st1
      .ok (md, st2)

/-! ## Query engine (`QueryService.query`, lines 21-52) -/

/-- The metadata attached to a retrieved chunk, as read by the query path. -/
structure ChunkMeta where
  docId : String
  filename : String
  chunkIndex : Nat
  deriving DecidableEq

/-- Shape of `collection.query(...)`: parallel nested lists of chunk texts
and metadata, one inner list per query embedding. -/
structure ChromaQueryResult where
  documents : List (List String)
  metadatas : List (List ChunkMeta)
  deriving DecidableEq

structure QueryResponse where
  question : String
  answer : String
  sources : List String
  deriving DecidableEq

def noDocsAnswer : String :=
  "I don't have any documents to answer from. Please upload some PDFs first."

def contextSeparator : String := "\n\n---\n\n"

/-- `list(set(m['filename'] for m in ...))`: the de-duplicated filenames
(set semantics; the order Python produces is unspecified). -/
def dedupFilenames (ms : List ChunkMeta) : List String :=
  (ms.map (fun m => m.filename)).dedup

/-- `QueryService.query`.  The question embedding, the vector search, the
prompt template and the generation call are external: the search outcome is
the `results` parameter, the template is `render` and the model is
`generate` (which may fail).  The boolean of the result records whether the
generation capability was invoked. -/
def query_run (question : String) (results : ChromaQueryResult)
    (render : String → String → String) (generate : String → Except AppError String) :
    Except AppError (QueryResponse × Bool) :=
  let relevant_chunks := match results.documents with
    | [] => []
    | d :: _ => d
  let sources := match results.metadatas with
    | [] => []
    | m :: _ => if m.isEmpty then [] else dedupFilenames m
  if relevant_chunks.isEmpty then
    .ok ({ question := question, answer := noDocsAnswer, sources := [] }, false)
  else
    let context := String.intercalate contextSeparator relevant_chunks
    let full_prompt := render context question
    match generate full_prompt with
    | .error e => .error e
    | .ok ans => .ok ({ question := question, answer := ans, sources := sources }, true)

/-! ## Helper lemmas on extraction and the metadata dictionary -/

/-- `_extract_text_from_pdf` returns text only after its own emptiness check:
a successful extraction always holds a non-whitespace character. -/
lemma extract_ok_hasNonWS (content : FileContent) (text : String)
    (h : extract_text_from_pdf content = .ok text) : hasNonWS text = true := by
  unfold extract_text_from_pdf at h
  rcases hb : extractBody content with e | t
  · rw [hb] at h
    by_cases hc : strContains (pyLower e.msg) "encrypted"
    · simp [hc] at h
    · simp [hc] at h
  · rw [hb] at h
    simp only [Except.ok.injEq] at h
    subst h
    unfold extractBody at hb
    rcases content with doc | raw
    · by_cases henc : doc.encrypted
      · simp [henc] at hb
      · simp only [henc, Bool.false_eq_true, if_false] at hb
        by_cases hws : hasNonWS (extractPagesText doc.pages)
        · simp only [hws, if_true, Except.ok.injEq] at hb
          rw [← hb]
          exact hws
        · simp [hws] at hb
    · simp at hb

lemma dictGet_cons (d : String) (e : String × DocMeta) (t : List (String × DocMeta)) :
    dictGet d (e :: t) = if (e.1 == d) = true then some e.2 else dictGet d t := by
  by_cases hed : (e.1 == d) = true
  · rw [if_pos hed]
    simp [dictGet, List.find?_cons, hed]
  · rw [if_neg hed]
    rw [Bool.not_eq_true] at hed
    simp [dictGet, List.find?_cons, hed]

lemma dictErase_cons (k : String) (e : String × DocMeta) (t : List (String × DocMeta)) :
    dictErase k (e :: t) =
      if (e.1 == k) = true then dictErase k t else e :: dictErase k t := by
  simp only [dictErase, List.filter_cons]
  by_cases hek : (e.1 == k) = true
  · simp [hek]
  · simp only [Bool.not_eq_true] at hek
    simp [hek]

/-- Erasing one key from the metadata dictionary leaves lookups of every
other key unchanged. -/
lemma dictGet_erase_ne (k d : String) (m : List (String × DocMeta)) (h : d ≠ k) :
    dictGet d (dictErase k m) = dictGet d m := by
  induction m with
  | nil => rfl
  | cons e t ih =>
    rw [dictErase_cons, dictGet_cons]
    by_cases hek : (e.1 == k) = true
    · rw [if_pos hek]
      have hed : (e.1 == d) = false := by
        have hk : e.1 = k := by simpa using hek
        simp only [beq_eq_false_iff_ne]
        intro hde
        exact h (show d = k by rw [← hde]; exact hk)
      rw [ih]
      rw [if_neg (by simp [hed])]
    · rw [if_neg hek, dictGet_cons]
      by_cases hed : (e.1 == d) = true
      · rw [if_pos hed, if_pos hed]
      · rw [if_neg hed, if_neg hed]
        exact ih

/-! ## Evaluation lemmas for the 2500-character scenario

The scenario text is 2500 repetitions of a letter; the windows are computed
symbolically through the `replicate` lemmas rather than by brute-force
reduction. -/

lemma chunkTextAux_pos (cs : List Char) (size overlap fuel start : Nat) (h : 0 < fuel) :
    chunkTextAux cs size overlap fuel start =
      if start < cs.length then
        (if hasNonWS (String.mk ((cs.drop start).take size)) then
          String.mk ((cs.drop start).take size) ::
            chunkTextAux cs size overlap (fuel - 1) (start + (size - overlap))
        else chunkTextAux cs size overlap (fuel - 1) (start + (size - overlap)))
      else [] := by
  cases fuel with
  | zero => omega
  | succ f => rfl

lemma hasNonWS_replicate_a (k : Nat) (hk : 0 < k) :
    hasNonWS (String.mk (List.replicate k 'a')) = true := by
  simp only [hasNonWS, List.any_eq_true]
  refine ⟨'a', ?_, by decide⟩
  show 'a' ∈ List.replicate k 'a'
  exact List.mem_replicate.2 ⟨by omega, rfl⟩

lemma chunk_text_2500 :
    chunk_text (String.mk (List.replicate 2500 'a')) 1000 200 =
      [String.mk (List.replicate 1000 'a'), String.mk (List.replicate 1000 'a'),
       String.mk (List.replicate 900 'a'), String.mk (List.replicate 100 'a')] := by
  show chunkTextAux (List.replicate 2500 'a') 1000 200
    (List.replicate 2500 'a').length 0 = _
  rw [List.length_replicate]
  rw [chunkTextAux_pos _ _ _ _ _ (by norm_num)]
  simp only [List.length_replicate, List.drop_replicate, List.take_replicate]
  norm_num
  rw [hasNonWS_replicate_a 1000 (by norm_num)]
  rw [chunkTextAux_pos _ _ _ _ _ (by norm_num)]
  simp only [List.length_replicate, List.drop_replicate, List.take_replicate]
  norm_num
  rw [hasNonWS_replicate_a 1000 (by norm_num)]
  rw [chunkTextAux_pos _ _ _ _ _ (by norm_num)]
  simp only [List.length_replicate, List.drop_replicate, List.take_replicate]
  norm_num
  rw [hasNonWS_replicate_a 900 (by norm_num)]
  rw [chunkTextAux_pos _ _ _ _ _ (by norm_num)]
  simp only [List.length_replicate, List.drop_replicate, List.take_replicate]
  norm_num
  rw [hasNonWS_replicate_a 100 (by norm_num)]
  rw [chunkTextAux_pos _ _ _ _ _ (by norm_num)]
  simp only [List.length_replicate]
  norm_num

lemma upload_2500 :
    (upload_document "doc-1" "report.pdf"
      (.pdf ⟨false, [.content (String.mk (List.replicate 2500 'a'))]⟩)
      emptyStore).toOption.map (fun r => r.1.chunks_count) = some 4 := by
  have hT : hasNonWS (String.mk (List.replicate 2500 'a')) = true :=
    hasNonWS_replicate_a 2500 (by norm_num)
  have hfold : extractPagesText [.content (String.mk (List.replicate 2500 'a'))] =
      String.mk (List.replicate 2500 'a') := rfl
  have hbody : extractBody
      (.pdf ⟨false, [.content (String.mk (List.replicate 2500 'a'))]⟩) =
      .ok (String.mk (List.replicate 2500 'a')) := by
    show (if hasNonWS (extractPagesText [.content (String.mk (List.replicate 2500 'a'))]) = true
        then Except.ok (extractPagesText [.content (String.mk (List.replicate 2500 'a'))])
        else Except.error (.valueError noTextMsg)) =
      Except.ok (String.mk (List.replicate 2500 'a'))
    rw [hfold, hT, if_pos rfl]
  have hext : extract_text_from_pdf
      (.pdf ⟨false, [.content (String.mk (List.replicate 2500 'a'))]⟩) =
      .ok (String.mk (List.replicate 2500 'a')) := by
    unfold extract_text_from_pdf
    rw [hbody]
  have hchunks : chunk_text (String.mk (List.replicate 2500 'a')) CHUNK_SIZE CHUNK_OVERLAP =
      [String.mk (List.replicate 1000 'a'), String.mk (List.replicate 1000 'a'),
       String.mk (List.replicate 900 'a'), String.mk (List.replicate 100 'a')] :=
    chunk_text_2500
  unfold upload_document
  rw [hext]
  simp only [hT, Bool.not_true, Bool.false_eq_true, if_false, hchunks]
  rfl

/-! ## Claims -/

/-- C1: the chunker's sliding windows begin at position 0 and each subsequent
window starts at `previous_start + (size - overlap)`; chunking a
2500-character text with size 1000 and overlap 200 yields exactly 4 chunks
whose windows start at 0, 800, 1600 and 2400 (the last chunk shorter than
`size`), and a successful ingestion of a document carrying that text records
`chunks_count = 4`. -/
theorem C1_sliding_windows :
    (∀ (text : String) (size overlap : Nat),
      chunk_text text size overlap =
        (windowStarts text.length size overlap).filterMap (fun st =>
          let c := String.mk ((text.toList.drop st).take size)
          if hasNonWS c then some c else none)) ∧
    (∀ (len size overlap : Nat), 0 < len →
      (windowStarts len size overlap).head? = some 0) ∧
    (∀ (len size overlap i a : Nat), 0 < overlap → overlap < size →
      (windowStarts len size overlap)[i + 1]? = some a →
      ∃ b, (windowStarts len size overlap)[i]? = some b ∧ a = b + (size - overlap)) ∧
    windowStarts 2500 1000 200 = [0, 800, 1600, 2400] ∧
    chunk_text (String.mk (List.replicate 2500 'a')) 1000 200 =
      [String.mk (List.replicate 1000 'a'), String.mk (List.replicate 1000 'a'),
       String.mk (List.replicate 900 'a'), String.mk (List.replicate 100 'a')] ∧
    (upload_document "doc-1" "report.pdf"
        (.pdf ⟨false, [.content (String.mk (List.replicate 2500 'a'))]⟩)
        emptyStore).toOption.map (fun r => r.1.chunks_count) = some 4 := by
  refine ⟨?_, ?_, ?_, ?_, chunk_text_2500, upload_2500⟩
  · intro text size overlap
    exact chunkTextAux_eq_filterMap text.toList size overlap text.toList.length 0
  · intro len size overlap hlen
    exact windowStartsAux_head len size overlap len 0
      (windowStartsAux_ne_nil len size overlap len 0 hlen hlen)
  · intro len size overlap i a _ _ h
    exact windowStartsAux_step len size overlap len 0 i a h
  · decide

theorem C1_sliding_windows_witness :
    (windowStarts 5 3 1).head? = some 0 ∧
    (∃ b, (windowStarts 5 3 1)[0]? = some b ∧ 2 = b + (3 - 1)) :=
  ⟨C1_sliding_windows.2.1 5 3 1 (by decide),
   C1_sliding_windows.2.2.1 5 3 1 0 2 (by decide) (by decide) (by decide)⟩

/-- C2: the claim states that a plain-text upload is decoded directly as
text.  The code instead routes every upload — including `.txt` files, which
the controller accepts — through `_extract_text_from_pdf`, so the bytes of a
plain-text file are handed to the PDF parser, which raises; the decoded text
never reaches chunking.  This theorem evaluates the code's behaviour on such
an upload: it fails with the PDF read error and nothing is ingested. -/
theorem C2_txt_upload_routed_to_pdf_extraction :
    ∀ (docId filename raw : String) (st : Store),
      upload_document docId filename (.nonPdf raw) st =
        .error (.pdfReadError pdfReadFailMsg, st) := by
  intro docId filename raw st
  rfl

/-- C3 counterexample: with `overlap = size = 1` on the text `"a"`, the
chunking loop raises no configuration error; it never even reaches its exit
condition (the guard holds after every number of iterations), and its first
iteration happily emits a chunk.  The claimed fail-fast configuration error
does not exist in the code. -/
theorem C3_no_failfast_counterexample :
    (¬ ∃ n, ¬ (((chunkStep "a".toList 1 1)^[n] ⟨0, []⟩).start <
      ("a".toList.length : Int))) ∧
    ((chunkStep "a".toList 1 1)^[1] ⟨0, []⟩).chunks = ["a"] := by
  constructor
  · rintro ⟨n, hn⟩
    apply hn
    have aux : ∀ m, ((chunkStep "a".toList 1 1)^[m] ⟨0, []⟩).start = 0 := by
      intro m
      induction m with
      | zero => rfl
      | succ j ihj =>
        rw [Function.iterate_succ_apply']
        generalize (chunkStep "a".toList 1 1)^[j] ⟨0, []⟩ = s at ihj ⊢
        simp only [chunkStep, ihj]
        rw [if_pos (by decide : (0 : Int) < ("a".toList.length : Int))]
        norm_num
    rw [aux n]
    decide
  · decide

/-- C3 amended: the chunker performs no configuration validation and never
raises a configuration error.  With `overlap ≥ size` the loop guard holds
after every number of iterations on nonempty text (the loop never
terminates instead of failing fast); with `0 < overlap < size` the loop
terminates and produces the finite, eagerly materialized sequence
`chunk_text text size overlap`. -/
theorem C3_amended_no_validation :
    (∀ (cs : List Char) (size overlap : Int), size ≤ overlap → 0 < cs.length →
      ∀ n, ((chunkStep cs size overlap)^[n] ⟨0, []⟩).start < (cs.length : Int)) ∧
    (∀ (text : String) (size overlap : Nat), 0 < overlap → overlap < size →
      ∃ n, ¬ (((chunkStep text.toList size overlap)^[n] ⟨0, []⟩).start <
          (text.toList.length : Int)) ∧
        ((chunkStep text.toList size overlap)^[n] ⟨0, []⟩).chunks =
          chunk_text text size overlap) := by
  constructor
  · intro cs size overlap hov hlen n
    have aux : ∀ m, ((chunkStep cs size overlap)^[m] ⟨0, []⟩).start ≤ 0 := by
      intro m
      induction m with
      | zero => simp
      | succ j ihj =>
        rw [Function.iterate_succ_apply']
        by_cases hg : ((chunkStep cs size overlap)^[j] ⟨0, []⟩).start < (cs.length : Int)
        · simp only [chunkStep, hg, if_true]
          omega
        · simp only [chunkStep, hg, if_false]
          exact ihj
    have := aux n
    omega
  · intro text size overlap _ hov
    obtain ⟨n, h1, h2⟩ := chunkStep_iterate text.toList size overlap hov
      text.toList.length 0 [] (by omega)
    exact ⟨n, by exact_mod_cast h1, by simpa using h2⟩

theorem C3_amended_witness :
    ((chunkStep "ab".toList 1 3)^[5] ⟨0, []⟩).start < ("ab".toList.length : Int) ∧
    (∃ n, ¬ (((chunkStep "ab".toList 3 1)^[n] ⟨0, []⟩).start <
        ("ab".toList.length : Int)) ∧
      ((chunkStep "ab".toList 3 1)^[n] ⟨0, []⟩).chunks = chunk_text "ab" 3 1) :=
  ⟨C3_amended_no_validation.1 "ab".toList 1 3 (by decide) (by decide) 5,
   C3_amended_no_validation.2 "ab" 3 1 (by decide) (by decide)⟩

/-- C4 counterexample: for `T = "abcd"`, `size = 5`, `overlap = 2`
(a valid configuration, `0 < 2 < 5`) no window is discarded — the chunk list
and the window list have the same length and every window is non-whitespace —
yet re-concatenating after dropping the last `overlap` characters of the
non-final chunk gives `"abd"`, which is not the prefix of `T` reaching the
final window's end (`"abcd"`), and indeed not a prefix of `T` at all.  The
non-final window `[0, 5)` is truncated by the text end, so dropping `overlap`
characters from it loses the character `'c'` that the final window does not
re-supply. -/
theorem C4_roundtrip_counterexample :
    chunk_text "abcd" 5 2 = ["abcd", "d"] ∧
    windowStarts "abcd".length 5 2 = [0, 3] ∧
    (chunk_text "abcd" 5 2).length = (windowStarts "abcd".length 5 2).length ∧
    dropLastOverlapJoin 2 (chunk_text "abcd" 5 2) = "abd" ∧
    (dropLastOverlapJoin 2 (chunk_text "abcd" 5 2)).toList.isPrefixOf "abcd".toList
      = false := by
  refine ⟨by decide, by decide, by decide, by decide, by decide⟩

/-- C4 amended: for every text and valid configuration `0 < overlap < size`,
if no window is discarded as whitespace-only and additionally every
non-final window is full length (`start + size ≤ |T|`), then
re-concatenating the chunks after dropping the last `overlap` characters of
each non-final chunk reconstructs the text exactly (the prefix of `T` up to
the final window's end, which covers all of `T`). -/
theorem C4_roundtrip_amended :
    ∀ (text : String) (size overlap : Nat), 0 < overlap → overlap < size →
      (∀ st ∈ windowStarts text.length size overlap,
        hasNonWS (String.mk ((text.toList.drop st).take size)) = true) →
      (∀ st ∈ windowStarts text.length size overlap,
        st + size ≤ text.length ∨ text.length ≤ st + (size - overlap)) →
      dropLastOverlapJoin overlap (chunk_text text size overlap) = text := by
  intro text size overlap h0 hov hnodrop hfull
  have h := dropLastOverlapJoin_chunkTextAux text.toList size overlap h0 hov
    text.toList.length 0 (by omega) hnodrop hfull
  rw [List.drop_zero] at h
  exact h

theorem C4_roundtrip_amended_witness :
    dropLastOverlapJoin 2 (chunk_text "abcdef" 4 2) = "abcdef" :=
  C4_roundtrip_amended "abcdef" 4 2 (by decide) (by decide) (by decide) (by decide)

/-- C5: uploading an encrypted PDF fails with the encryption-specific
`ValueError` (a client rejection: the controller maps `ValueError` to
HTTP 400), and the failure is atomic — the store carried by the error is the
caller's store unchanged: no chunk record was upserted and no metadata was
persisted, whatever the pages and the prior state. -/
theorem C5_encrypted_pdf_atomic_rejection :
    ∀ (docId filename : String) (pages : List PdfPage) (st : Store),
      upload_document docId filename (.pdf ⟨true, pages⟩) st =
        .error (.valueError encryptedPdfMsg, st) := by
  intro docId filename pages st
  have hbody : extractBody (.pdf ⟨true, pages⟩) = .error (.valueError encryptedPdfMsg) := rfl
  have hext : extract_text_from_pdf (.pdf ⟨true, pages⟩) =
      .error (.valueError encryptedPdfMsg) := by
    unfold extract_text_from_pdf
    rw [hbody]
    rfl
  unfold upload_document
  rw [hext]

/-- C7: whenever the vector-store search returns zero chunks, `query` returns
the canned no-documents answer with an empty sources list, does not invoke
the generation capability, and raises no error — for every question, every
prompt template and every generation function (even an always-failing
one). -/
theorem C7_empty_search_canned_answer :
    ∀ (question : String) (results : ChromaQueryResult)
      (render : String → String → String) (generate : String → Except AppError String),
      results.documents.headD [] = [] →
        query_run question results render generate =
          .ok ({ question := question, answer := noDocsAnswer, sources := [] }, false) := by
  intro q results render generate h
  unfold query_run
  rcases hd : results.documents with _ | ⟨d, ds⟩
  · simp
  · rw [hd] at h
    simp only [List.headD_cons] at h
    subst h
    simp

theorem C7_empty_search_witness :
    query_run "What is X?" ⟨[], []⟩ (fun c q => c ++ q)
      (fun _ => .error (.valueError "generation backend unavailable")) =
      .ok ({ question := "What is X?", answer := noDocsAnswer, sources := [] }, false) :=
  C7_empty_search_canned_answer "What is X?" ⟨[], []⟩ (fun c q => c ++ q)
    (fun _ => .error (.valueError "generation backend unavailable")) (by decide)

/-- The ids fetched by `collection.get(where={"doc_id": ...})` pick out, via
`collection.delete(ids=...)`, exactly the records whose metadata `doc_id`
matches — provided the collection's ids are unique, which Chroma enforces. -/
lemma filter_by_fetched_ids (vec : List ChunkRecord) (docId : String)
    (hnd : (vec.map (fun c => c.chunkId)).Nodup) :
    (if ((vec.filter (fun c => c.docId == docId)).map (fun c => c.chunkId)).isEmpty
      then vec
      else vec.filter (fun c =>
        !(((vec.filter (fun c2 => c2.docId == docId)).map
          (fun c2 => c2.chunkId)).contains c.chunkId))) =
    vec.filter (fun c => !(c.docId == docId)) := by
  have key : ∀ c ∈ vec,
      (((vec.filter (fun c2 => c2.docId == docId)).map
        (fun c2 => c2.chunkId)).contains c.chunkId) = (c.docId == docId) := by
    intro c hc
    by_cases hcd : c.docId = docId
    · have hm : c.chunkId ∈ (vec.filter (fun c2 => c2.docId == docId)).map
          (fun c2 => c2.chunkId) :=
        List.mem_map.2 ⟨c, List.mem_filter.2 ⟨hc, by simp [hcd]⟩, rfl⟩
      simp [List.contains, hcd, hm]
    · have hm : c.chunkId ∉ (vec.filter (fun c2 => c2.docId == docId)).map
          (fun c2 => c2.chunkId) := by
        intro hmem
        rcases List.mem_map.1 hmem with ⟨c2, hc2f, hcid⟩
        rcases List.mem_filter.1 hc2f with ⟨hc2v, hc2d⟩
        have hce : c2 = c := List.inj_on_of_nodup_map hnd hc2v hc hcid
        rw [hce] at hc2d
        exact hcd (by simpa using hc2d)
      simp [List.contains, hcd, hm]
  by_cases hemp : ((vec.filter (fun c => c.docId == docId)).map
      (fun c => c.chunkId)).isEmpty
  · rw [if_pos hemp]
    have hnil : vec.filter (fun c => c.docId == docId) = [] := by
      rcases hf : vec.filter (fun c => c.docId == docId) with _ | ⟨x, xs⟩
      · exact hf
      · rw [hf] at hemp
        simp at hemp
    have : ∀ c ∈ vec, ¬ ((c.docId == docId) = true) := by
      rw [List.filter_eq_nil_iff] at hnil
      exact hnil
    symm
    rw [List.filter_eq_self]
    intro c hc
    simp [this c hc]
  · rw [if_neg hemp]
    apply List.filter_congr
    intro c hc
    rw [key c hc]

/-- `delete_document` on a present id, with its `let` chain laid out. -/
lemma delete_document_present (st : Store) (docId : String)
    (h : ¬ ((dictGet docId st.meta).isNone = true)) :
    delete_document docId st =
      (true,
       { vec := if ((st.vec.filter (fun c => c.docId == docId)).map
             (fun c => c.chunkId)).isEmpty then st.vec
           else st.vec.filter (fun c =>
             !(((st.vec.filter (fun c2 => c2.docId == docId)).map
               (fun c2 => c2.chunkId)).contains c.chunkId)),
         meta := dictErase docId st.meta,
         file := dictErase docId st.meta }) := by
  unfold delete_document
  rw [if_neg h]

/-- C6: `delete_document` returns `false` and changes nothing when the id is
absent from the metadata store; when the id is present (and the collection's
chunk ids are unique, as Chroma guarantees), it returns `true`, removes from
the vector store exactly the chunk records whose metadata `doc_id` equals the
id — afterwards no stored chunk carries that `doc_id`, so no search can
return one — removes the id's metadata entry, persists the shrunken mapping,
and leaves every other document's metadata lookup unchanged. -/
theorem C6_delete_document_exact :
    ∀ (st : Store) (docId : String),
      (dictGet docId st.meta = none → delete_document docId st = (false, st)) ∧
      ((dictGet docId st.meta).isSome = true →
        (st.vec.map (fun c => c.chunkId)).Nodup →
          (delete_document docId st).1 = true ∧
          (delete_document docId st).2.vec =
            st.vec.filter (fun c => !(c.docId == docId)) ∧
          (delete_document docId st).2.meta = dictErase docId st.meta ∧
          (delete_document docId st).2.file = dictErase docId st.meta ∧
          (∀ c ∈ (delete_document docId st).2.vec, ¬ (c.docId = docId)) ∧
          (∀ d, d ≠ docId →
            dictGet d (delete_document docId st).2.meta = dictGet d st.meta)) := by
  intro st docId
  constructor
  · intro hnone
    unfold delete_document
    rw [if_pos (by simp [hnone])]
  · intro hsome hnd
    have hcond : ¬ ((dictGet docId st.meta).isNone = true) := by
      simp only [Option.isNone_iff_eq_none]
      intro he
      rw [he] at hsome
      simp at hsome
    rw [delete_document_present st docId hcond]
    refine ⟨rfl, ?_, rfl, rfl, ?_, ?_⟩
    · exact filter_by_fetched_ids st.vec docId hnd
    · intro c hcmem
      have hcmem2 : c ∈ st.vec.filter (fun c2 => !(c2.docId == docId)) := by
        rw [← filter_by_fetched_ids st.vec docId hnd]
        exact hcmem
      have := (List.mem_filter.1 hcmem2).2
      simpa using this
    · intro d hd
      exact dictGet_erase_ne docId d st.meta hd

def stW : Store :=
  ⟨[⟨"docA_0", "docA", "a.pdf", 0, "alpha"⟩, ⟨"docB_0", "docB", "b.pdf", 0, "beta"⟩],
   [("docA", ⟨"docA", "a.pdf", 1⟩), ("docB", ⟨"docB", "b.pdf", 1⟩)],
   [("docA", ⟨"docA", "a.pdf", 1⟩), ("docB", ⟨"docB", "b.pdf", 1⟩)]⟩

theorem C6_delete_document_witness :
    delete_document "ghost" stW = (false, stW) ∧
    (delete_document "docA" stW).1 = true ∧
    (delete_document "docA" stW).2.vec =
      stW.vec.filter (fun c => !(c.docId == "docA")) :=
  ⟨(C6_delete_document_exact stW "ghost").1 (by decide),
   ((C6_delete_document_exact stW "docA").2 (by decide) (by decide)).1,
   ((C6_delete_document_exact stW "docA").2 (by decide) (by decide)).2.1⟩

/-- C8: every mutating metadata-store operation that returns successfully
leaves the persisted file holding exactly the full current in-memory
mapping: `save_document_metadata` always persists the updated mapping, a
successful `delete_document` persists the shrunken mapping (an unsuccessful
one changes nothing at all), and a successful `delete_all` persists the
empty mapping. -/
theorem C8_write_through :
    ∀ (st : Store) (docId : String) (md : DocMeta) (d c s : Option String),
      (save_document_metadata docId md st).file =
        (save_document_metadata docId md st).meta ∧
      ((delete_document docId st).1 = true →
        (delete_document docId st).2.file = (delete_document docId st).2.meta) ∧
      ((delete_document docId st).1 = false → (delete_document docId st).2 = st) ∧
      ((delete_all d c s st).1 = true →
        (delete_all d c s st).2.file = (delete_all d c s st).2.meta ∧
        (delete_all d c s st).2.meta = []) := by
  intro st docId md d c s
  refine ⟨rfl, ?_, ?_, ?_⟩
  · intro htrue
    by_cases hn : (dictGet docId st.meta).isNone = true
    · exfalso
      unfold delete_document at htrue
      rw [if_pos hn] at htrue
      simp at htrue
    · rw [delete_document_present st docId hn]
  · intro hfalse
    by_cases hn : (dictGet docId st.meta).isNone = true
    · unfold delete_document
      rw [if_pos hn]
    · exfalso
      rw [delete_document_present st docId hn] at hfalse
      simp at hfalse
  · intro htrue
    rcases d with _ | dm
    · rcases c with _ | cm
      · rcases s with _ | sm
        · exact ⟨rfl, rfl⟩
        · simp [delete_all] at htrue
      · simp [delete_all] at htrue
    · simp [delete_all] at htrue

theorem C8_write_through_witness :
    (delete_all none none none stW).2.file = (delete_all none none none stW).2.meta ∧
    (delete_all none none none stW).2.meta = [] :=
  (C8_write_through stW "docA" ⟨"docA", "a.pdf", 1⟩ none none none).2.2.2 (by decide)

/-- C9: a successful ingestion always records `chunks_count ≥ 1`: extraction
and the emptiness guard raise before chunking unless the text holds a
non-whitespace character, and on such a text the chunker — whose windows
cover every character position — emits at least one chunk for every valid
configuration. -/
theorem C9_chunks_count_positive :
    (∀ (text : String) (size overlap : Nat), overlap < size → hasNonWS text = true →
      chunk_text text size overlap ≠ []) ∧
    (∀ (docId filename : String) (content : FileContent) (st : Store)
      (md : DocMeta) (st2 : Store),
      upload_document docId filename content st = .ok (md, st2) →
        1 ≤ md.chunks_count) := by
  constructor
  · intro text size overlap hov hws
    simp only [hasNonWS, List.any_eq_true] at hws
    rcases hws with ⟨ch, hmem, hch⟩
    rcases List.mem_iff_get.1 hmem with ⟨⟨p, hp⟩, hpch⟩
    apply chunkTextAux_ne_nil text.toList size overlap hov text.toList.length 0
      (by omega) p hp (by omega)
    rw [hpch]
    simpa using hch
  · intro docId filename content st md st2 h
    unfold upload_document at h
    rcases hext : extract_text_from_pdf content with e | text
    · rw [hext] at h
      exact absurd h (by simp)
    · rw [hext] at h
      have hws := extract_ok_hasNonWS content text hext
      simp only [hws, Bool.not_true, Bool.false_eq_true, if_false, Except.ok.injEq,
        Prod.mk.injEq] at h
      have hne : chunk_text text CHUNK_SIZE CHUNK_OVERLAP ≠ [] := by
        have hov : CHUNK_OVERLAP < CHUNK_SIZE := by decide
        -- reuse the first conjunct's argument directly
        simp only [hasNonWS, List.any_eq_true] at hws
        rcases hws with ⟨ch, hmem, hch⟩
        rcases List.mem_iff_get.1 hmem with ⟨⟨p, hp⟩, hpch⟩
        apply chunkTextAux_ne_nil text.toList CHUNK_SIZE CHUNK_OVERLAP hov
          text.toList.length 0 (by omega) p hp (by omega)
        rw [hpch]
        simpa using hch
      rcases h with ⟨hmd, -⟩
      rw [← hmd]
      have := List.length_pos.2 hne
      simpa using this

theorem C9_chunks_count_witness :
    chunk_text "hello" 1000 200 ≠ [] ∧
    1 ≤ (⟨"d1", "a.pdf", 1⟩ : DocMeta).chunks_count :=
  ⟨C9_chunks_count_positive.1 "hello" 1000 200 (by decide) (by decide),
   C9_chunks_count_positive.2 "d1" "a.pdf" (.pdf ⟨false, [.content "hello"]⟩)
     emptyStore ⟨"d1", "a.pdf", 1⟩
     ⟨[⟨"d1_0", "d1", "a.pdf", 0, "hello"⟩],
      [("d1", ⟨"d1", "a.pdf", 1⟩)], [("d1", ⟨"d1", "a.pdf", 1⟩)]⟩
     (by rfl)⟩

/-- C10: `delete_all` surfaces no exception to its caller — every
combination of internal step outcomes yields a plain boolean result — it
returns `true` exactly when every internal step succeeded, and in that case
the in-memory mapping, the persisted file and the recreated vector
collection are all empty. -/
theorem C10_delete_all_total_boolean :
    ∀ (d c s : Option String) (st : Store),
      ((delete_all d c s st).1 = true ↔ (d = none ∧ c = none ∧ s = none)) ∧
      ((delete_all d c s st).1 = true → (delete_all d c s st).2 = emptyStore) := by
  intro d c s st
  rcases d with _ | dm
  · rcases c with _ | cm
    · rcases s with _ | sm
      · exact ⟨by simp [delete_all], fun _ => rfl⟩
      · exact ⟨by simp [delete_all], by simp [delete_all]⟩
    · exact ⟨by simp [delete_all], by simp [delete_all]⟩
  · exact ⟨by simp [delete_all], by simp [delete_all]⟩

theorem C10_delete_all_witness :
    (delete_all none none none stW).2 = emptyStore ∧
    ((delete_all (some "chroma unavailable") none none stW).1 = true ↔
      ((some "chroma unavailable" : Option String) = none ∧
        (none : Option String) = none ∧ (none : Option String) = none)) :=
  ⟨(C10_delete_all_total_boolean none none none stW).2 (by decide),
   (C10_delete_all_total_boolean (some "chroma unavailable") none none stW).1⟩

end DocMind
